import Mathlib

/-!
Verification of the bootstrap orchestration core of
`packages/osd-pm/src/commands/bootstrap.ts`: topological batching of
projects, the install phase, checksum-based cache decisions and the
build phase with its invalidate-before-run / commit-after-success cache
discipline.

Pure parts of the command are embedded as executable Lean functions.
External effects (installs, script runs, cache-file writes) are recorded
as an explicit event trace, and the per-project cache store is an
explicit association list threaded through the run.  Helpers of the
command that live outside the shown file (`topologicallyBatchProjects`,
`parallelizeBatches`, `BootstrapCacheFile`) are modelled from the spec
and marked as such in their doc comments.
-/

namespace OsdBootstrap

/-- A project as the bootstrap command observes it: identity, whether it
is a workspace-aggregator project, whether it declares (external)
dependencies, whether it declares an `osd:bootstrap` script, and whether
it declares explicit build targets. -/
structure Project where
  name : String
  isWorkspaceProject : Bool
  hasDependencies : Bool
  hasBootstrapScript : Bool
  hasBuildTargets : Bool
deriving DecidableEq, Repr

/-- Fingerprints are opaque digests; equality is all that matters. -/
abbrev Fingerprint := Nat

/-- The persisted cache store: one record (last-known-valid fingerprint)
per project name, as an association list. -/
abbrev CacheMap := List (String × Fingerprint)

/-- Association-list lookup by name (first match). -/
def lookupA {α : Type} : List (String × α) → String → Option α
  | [], _ => none
  | (m, v) :: rest, n => if m = n then some v else lookupA rest n

/-- The persisted record for a project, if any. -/
def lookupRecord (st : CacheMap) (n : String) : Option Fingerprint :=
  lookupA st n

/-- Delete a project's cache record (`BootstrapCacheFile.delete`). -/
def eraseRecord : CacheMap → String → CacheMap
  | [], _ => []
  | e :: rest, n => if e.1 = n then eraseRecord rest n else e :: eraseRecord rest n

/-- Write a project's cache record (`BootstrapCacheFile.write`),
replacing any previous record for the same project. -/
def writeRecord (st : CacheMap) (n : String) (f : Fingerprint) : CacheMap :=
  (n, f) :: eraseRecord st n

/-- Modelled from the spec: `BootstrapCacheFile.isValid` is not part of
the shown source; per the spec's validity rule a cache is valid iff a
record exists and its fingerprint equals the freshly computed
fingerprint for that project. -/
def isValid (st : CacheMap) (n : String) (fresh : Fingerprint) : Bool :=
  lookupRecord st n == some fresh

/-- The caller-supplied options the command consults. -/
structure Options where
  cache : Bool
  frozenLockfile : Bool
  preferOffline : Bool
deriving DecidableEq, Repr

/-- Extra arguments forwarded to the install collaborator
(bootstrap.ts lines 52-55). -/
def extraArgs (o : Options) : List String :=
  (if o.frozenLockfile then ["--frozen-lockfile"] else []) ++
    (if o.preferOffline then ["--prefer-offline"] else [])

/-- A project takes part in caching iff it has an `osd:bootstrap` script
or explicit build targets (bootstrap.ts line 88). -/
def needsCache (p : Project) : Bool :=
  p.hasBootstrapScript || p.hasBuildTargets

/-- The per-project cache decision made in the checksum phase
(bootstrap.ts lines 87-99): projects with a script or build targets get
`some (options.cache && isValid)`, all others get no decision. -/
def cacheDecision (opts : Options) (st : CacheMap) (fresh : String → Fingerprint)
    (p : Project) : Option Bool :=
  if needsCache p then some (opts.cache && isValid st p.name (fresh p.name)) else none

/-- The decisions of all projects, keyed by project name, in project
order (the `caches` map of bootstrap.ts). -/
def decisionList (opts : Options) (st : CacheMap) (fresh : String → Fingerprint)
    (projects : List Project) : List (String × Bool) :=
  projects.filterMap (fun p => (cacheDecision opts st fresh p).map (fun v => (p.name, v)))

/-- Observable events of one run, in the order they happen. -/
inductive Event where
  | install (name : String)
  | lockRead
  | validate
  | link
  | checksums
  | decision (name : String) (valid : Bool)
  | cacheDelete (name : String)
  | buildTargets (name : String)
  | runScript (name : String)
  | cacheWrite (name : String)
deriving DecidableEq, Repr

/-- The install step for one project (bootstrap.ts lines 58-66):
workspace projects are skipped entirely; otherwise install is invoked
iff the project declares dependencies. -/
def installProject (p : Project) : List Event :=
  if p.isWorkspaceProject then []
  else if p.hasDependencies then [Event.install p.name] else []

/-- The install phase (bootstrap.ts lines 57-68): batch by batch, one
project at a time, in order. -/
def installPhase (batches : List (List Project)) : List Event :=
  (batches.map (fun b => (b.map installProject).flatten)).flatten

/-- Decision events emitted by the checksum phase, in project order. -/
def decisionEvents (decs : List (String × Bool)) : List Event :=
  decs.map (fun d => Event.decision d.1 d.2)

/-- The build-phase unit of work for one project (bootstrap.ts lines
105-130).  `dec` is the project's cache decision, `fresh` its freshly
computed fingerprint, `ok` whether the build invocation completes
successfully.  Returns the events of the unit, the cache store after it,
and whether it succeeded.  A stale project first has its record deleted,
then its build targets run (taking precedence over a bootstrap script)
or, lacking targets, its `osd:bootstrap` script; the record is written
only after the build step succeeds.  Valid or undecided projects do
nothing. -/
def buildUnit (dec : Option Bool) (p : Project) (fresh : Fingerprint) (ok : Bool)
    (st : CacheMap) : List Event × CacheMap × Bool :=
  match dec with
  | some false =>
    let buildEv := if p.hasBuildTargets then Event.buildTargets p.name
      else Event.runScript p.name
    if ok then
      ⟨[Event.cacheDelete p.name, buildEv, Event.cacheWrite p.name],
        writeRecord (eraseRecord st p.name) p.name fresh, true⟩
    else
      ⟨[Event.cacheDelete p.name, buildEv], eraseRecord st p.name, false⟩
  | _ => ⟨[], st, true⟩

/-- One batch of the build phase: every unit of the batch runs (started
siblings are allowed to finish); the names of the failed units are
collected in batch order. -/
def buildBatch (decs : List (String × Bool)) (fresh : String → Fingerprint)
    (ok : String → Bool) : List Project → CacheMap → List Event × CacheMap × List String
  | [], st => ⟨[], st, []⟩
  | p :: rest, st =>
    let r := buildUnit (lookupA decs p.name) p (fresh p.name) (ok p.name) st
    let rs := buildBatch decs fresh ok rest r.2.1
    ⟨r.1 ++ rs.1, rs.2.1, (if r.2.2 then [] else [p.name]) ++ rs.2.2⟩

/-- Modelled from the spec: `parallelizeBatches` is not part of the
shown source; per the spec batches run strictly sequentially, every unit
of a batch settles before the next batch is considered, and when any
unit of a batch fails its siblings still finish, no later batch starts,
and the first failure is propagated once the batch settles. -/
def buildPhase (decs : List (String × Bool)) (fresh : String → Fingerprint)
    (ok : String → Bool) : List (List Project) → CacheMap →
      List Event × CacheMap × Option String
  | [], st => ⟨[], st, none⟩
  | b :: rest, st =>
    let r := buildBatch decs fresh ok b st
    match r.2.2 with
    | [] =>
      let rs := buildPhase decs fresh ok rest r.2.1
      ⟨r.1 ++ rs.1, rs.2.1, rs.2.2⟩
    | f :: _ => ⟨r.1, r.2.1, some f⟩

/-- The errors a run can surface. -/
inductive RunError where
  | lockValidation
  | build (name : String)
deriving DecidableEq, Repr

/-- The outcome of one bootstrap run: its event trace, the persisted
cache store it leaves behind, and its error, if any. -/
structure RunResult where
  trace : List Event
  cache : CacheMap
  error : Option RunError
deriving DecidableEq, Repr

/-- One run of the bootstrap command (`BootstrapCommand.run`): the
install phase over the workspace batching, then the lockfile is read and
validated (a failed validation aborts the run here), executables are
linked, checksums are computed and all cache decisions are made, and
finally the build phase runs over the full batching.  `validateOk`
models the outcome of `validateDependencies`, `ok` the per-project build
outcomes. -/
def run (installBatches buildBatches : List (List Project)) (projects : List Project)
    (opts : Options) (validateOk : Bool) (fresh : String → Fingerprint)
    (ok : String → Bool) (st : CacheMap) : RunResult :=
  let iev := installPhase installBatches
  if validateOk then
    let decs := decisionList opts st fresh projects
    let r := buildPhase decs fresh ok buildBatches st
    ⟨iev ++ [Event.lockRead, Event.validate, Event.link, Event.checksums] ++
        decisionEvents decs ++ r.1,
      r.2.1, r.2.2.map RunError.build⟩
  else
    ⟨iev ++ [Event.lockRead], st, some RunError.lockValidation⟩

/-- Modelled from the spec: `topologicallyBatchProjects` is not part of
the shown source; per the spec it is Kahn-style repeated layering.  A
node is ready when none of its dependencies is still unbatched. -/
def ready (deps : String → List String) (remaining : List String) (n : String) : Bool :=
  (deps n).all (fun d => !remaining.contains d)

/-- Modelled from the spec: repeated layering with explicit fuel; each
round takes every ready node as the next batch and recurses on the rest;
an empty round means a dependency cycle and yields `none`. -/
def batchAux (deps : String → List String) : Nat → List String → Option (List (List String))
  | _, [] => some []
  | 0, _ :: _ => none
  | fuel + 1, n :: rest =>
    let b := (n :: rest).filter (ready deps (n :: rest))
    if b.isEmpty then none
    else
      (batchAux deps fuel ((n :: rest).filter (fun m => !(ready deps (n :: rest) m)))).map
        (fun bs => b :: bs)

/-- Modelled from the spec: the topological batching operation over a
node set and a dependency function.  `nodes.length` rounds always
suffice because every successful round removes at least one node. -/
def batch (deps : String → List String) (nodes : List String) :
    Option (List (List String)) :=
  batchAux deps nodes.length nodes

/-- The project identity an event concerns, if any. -/
def Event.projectName : Event → Option String
  | .install n => some n
  | .decision n _ => some n
  | .cacheDelete n => some n
  | .buildTargets n => some n
  | .runScript n => some n
  | .cacheWrite n => some n
  | _ => none

theorem lookupRecord_eraseRecord (st : CacheMap) (n m : String) :
    lookupRecord (eraseRecord st n) m = if n = m then none else lookupRecord st m := by
  induction st with
  | nil => simp [eraseRecord, lookupRecord, lookupA]
  | cons e rest ih =>
    simp only [eraseRecord, lookupRecord, lookupA] at *
    split_ifs with h1 h2 <;> simp_all [lookupA]

theorem lookupRecord_writeRecord (st : CacheMap) (n m : String) (f : Fingerprint) :
    lookupRecord (writeRecord st n f) m = if n = m then some f else lookupRecord st m := by
  have he := lookupRecord_eraseRecord st n m
  simp only [lookupRecord] at he ⊢
  simp only [writeRecord, lookupA]
  split_ifs with h <;> simp_all

theorem buildUnit_skip (dec : Option Bool) (p : Project) (f : Fingerprint) (ok : Bool)
    (st : CacheMap) (h : dec ≠ some false) :
    buildUnit dec p f ok st = ⟨[], st, true⟩ := by
  match dec with
  | none => rfl
  | some true => rfl
  | some false => exact absurd rfl h

theorem buildUnit_lookup_other (dec : Option Bool) (p : Project) (f : Fingerprint)
    (ok : Bool) (st : CacheMap) (x : String) (hx : p.name ≠ x) :
    lookupRecord (buildUnit dec p f ok st).2.1 x = lookupRecord st x := by
  match dec with
  | none => rfl
  | some true => rfl
  | some false =>
    simp only [buildUnit]
    split_ifs <;>
      simp [lookupRecord_writeRecord, lookupRecord_eraseRecord, hx]

theorem buildBatch_lookup_preserved (decs : List (String × Bool))
    (fresh : String → Fingerprint) (ok : String → Bool) (l : List Project)
    (st : CacheMap) (x : String)
    (hx : ∀ q ∈ l, q.name = x → lookupA decs q.name ≠ some false) :
    lookupRecord (buildBatch decs fresh ok l st).2.1 x = lookupRecord st x := by
  induction l generalizing st with
  | nil => rfl
  | cons p rest ih =>
    simp only [buildBatch]
    by_cases hpx : p.name = x
    · rw [buildUnit_skip _ _ _ _ _ (hx p (by simp) hpx)]
      exact ih _ (fun q hq hqx => hx q (by simp [hq]) hqx)
    · rw [ih _ (fun q hq hqx => hx q (by simp [hq]) hqx)]
      exact buildUnit_lookup_other _ _ _ _ _ _ hpx

theorem buildPhase_lookup_preserved (decs : List (String × Bool))
    (fresh : String → Fingerprint) (ok : String → Bool)
    (batches : List (List Project)) (st : CacheMap) (x : String)
    (hx : ∀ q ∈ batches.flatten, q.name = x → lookupA decs q.name ≠ some false) :
    lookupRecord (buildPhase decs fresh ok batches st).2.1 x = lookupRecord st x := by
  induction batches generalizing st with
  | nil => rfl
  | cons b rest ih =>
    have hb : ∀ q ∈ b, q.name = x → lookupA decs q.name ≠ some false :=
      fun q hq => hx q (by simp [hq])
    simp only [buildPhase]
    rcases hf : (buildBatch decs fresh ok b st).2.2 with _ | ⟨f, fs⟩
    · simp only []
      rw [ih _ (fun q hq => hx q (by simp [List.mem_flatten]; right; simpa [List.mem_flatten] using hq))]
      exact buildBatch_lookup_preserved decs fresh ok b st x hb
    · exact buildBatch_lookup_preserved decs fresh ok b st x hb

/-- Claim C1: for a stale project the build-phase unit first deletes the
cache record, then runs the build step, and writes the new record only
after the step succeeds; an interruption after the delete leaves no
record, so the next run's decision for that project is stale. -/
theorem stale_unit_invalidates_then_commits (p : Project) (f : Fingerprint)
    (st : CacheMap) :
    (∀ ok : Bool, (buildUnit (some false) p f ok st).1 =
        [Event.cacheDelete p.name,
          if p.hasBuildTargets then Event.buildTargets p.name else Event.runScript p.name] ++
          (if ok then [Event.cacheWrite p.name] else [])) ∧
    lookupRecord (buildUnit (some false) p f true st).2.1 p.name = some f ∧
    lookupRecord (buildUnit (some false) p f false st).2.1 p.name = none ∧
    (∀ (opts : Options) (fr : String → Fingerprint), needsCache p = true →
      cacheDecision opts (buildUnit (some false) p f false st).2.1 fr p = some false) := by
  refine ⟨fun ok => ?_, ?_, ?_, fun opts fr h => ?_⟩
  · cases ok <;> simp [buildUnit]
  · simp [buildUnit, lookupRecord_writeRecord]
  · simp [buildUnit, lookupRecord_eraseRecord]
  · simp [cacheDecision, h, isValid, buildUnit, lookupRecord_eraseRecord]

/-- Claim C2: a project with an `osd:bootstrap` script or build targets
gets decision valid iff caching is enabled, a record exists and the
recorded fingerprint equals the fresh one; a project with neither gets
no decision at all. -/
theorem cacheDecision_valid_iff (opts : Options) (st : CacheMap)
    (fresh : String → Fingerprint) (p : Project) :
    (needsCache p = true →
      (cacheDecision opts st fresh p = some true ↔
        opts.cache = true ∧ lookupRecord st p.name = some (fresh p.name))) ∧
    (needsCache p = false → cacheDecision opts st fresh p = none) := by
  constructor
  · intro h
    simp [cacheDecision, h, isValid, Bool.and_eq_true]
  · intro h
    simp [cacheDecision, h]

/-- Claim C3: when a stale project declares build targets, the unit runs
the build targets and never the `osd:bootstrap` script; a script run can
only happen for a project without build targets. -/
theorem build_targets_precedence (p : Project) (f : Fingerprint) (ok : Bool)
    (st : CacheMap) (h : p.hasBuildTargets = true) :
    Event.buildTargets p.name ∈ (buildUnit (some false) p f ok st).1 ∧
    (∀ n, Event.runScript n ∉ (buildUnit (some false) p f ok st).1) ∧
    (∀ (q : Project) (g : Fingerprint) (okq : Bool) (stq : CacheMap) (n : String),
      Event.runScript n ∈ (buildUnit (some false) q g okq stq).1 →
        q.hasBuildTargets = false) := by
  refine ⟨?_, fun n => ?_, fun q g okq stq n hmem => ?_⟩
  · cases ok <;> simp [buildUnit, h]
  · cases ok <;> simp [buildUnit, h]
  · cases hqb : q.hasBuildTargets
    · rfl
    · cases okq <;> simp [buildUnit, hqb] at hmem

theorem build_targets_precedence_witness :
    Event.buildTargets "a" ∈
      (buildUnit (some false) ⟨"a", false, false, true, true⟩ 0 true []).1 :=
  (build_targets_precedence ⟨"a", false, false, true, true⟩ 0 true [] rfl).1

/-- Claim C9: with caching disabled every cached project's decision is
stale, and a successful build still deletes the record first and
rewrites it afterwards. -/
theorem cache_disabled_rebuilds_and_rewrites (opts : Options) (st : CacheMap)
    (fresh : String → Fingerprint) (p : Project) (f : Fingerprint)
    (hc : opts.cache = false) :
    (needsCache p = true → cacheDecision opts st fresh p = some false) ∧
    ((buildUnit (some false) p f true st).1 =
      [Event.cacheDelete p.name,
        if p.hasBuildTargets then Event.buildTargets p.name else Event.runScript p.name,
        Event.cacheWrite p.name]) ∧
    lookupRecord (buildUnit (some false) p f true st).2.1 p.name = some f := by
  refine ⟨fun h => by simp [cacheDecision, h, hc], ?_, ?_⟩
  · cases hb : p.hasBuildTargets <;> simp [buildUnit, hb]
  · simp [buildUnit, lookupRecord_writeRecord]

theorem cache_disabled_rebuilds_and_rewrites_witness :
    cacheDecision ⟨false, false, false⟩ [("a", 3)] (fun _ => 3)
        ⟨"a", false, false, true, false⟩ = some false :=
  (cache_disabled_rebuilds_and_rewrites ⟨false, false, false⟩ [("a", 3)]
    (fun _ => 3) ⟨"a", false, false, true, false⟩ 3 rfl).1 rfl

/-- Claim C10: a unit whose decision is valid, and a unit for a project
with no cache entry, emits no event and leaves the cache store
untouched; across the whole build phase the record of every such
project is unchanged. -/
theorem valid_or_uncached_unit_is_noop (p : Project) (f : Fingerprint) (ok : Bool)
    (st : CacheMap) :
    buildUnit (some true) p f ok st = ⟨[], st, true⟩ ∧
    buildUnit none p f ok st = ⟨[], st, true⟩ ∧
    (∀ (decs : List (String × Bool)) (fresh : String → Fingerprint)
        (okf : String → Bool) (batches : List (List Project)) (st0 : CacheMap)
        (x : String),
      (∀ q ∈ batches.flatten, q.name = x → lookupA decs q.name ≠ some false) →
      lookupRecord (buildPhase decs fresh okf batches st0).2.1 x = lookupRecord st0 x) :=
  ⟨rfl, rfl, fun decs fresh okf batches st0 x hx =>
    buildPhase_lookup_preserved decs fresh okf batches st0 x hx⟩

theorem installProject_eq (p : Project) :
    installProject p =
      if !p.isWorkspaceProject && p.hasDependencies then [Event.install p.name]
      else [] := by
  cases hw : p.isWorkspaceProject <;> cases hd : p.hasDependencies <;>
    simp [installProject, hw, hd]

theorem installBatch_eq (l : List Project) :
    (l.map installProject).flatten =
      (l.filter (fun p => !p.isWorkspaceProject && p.hasDependencies)).map
        (fun p => Event.install p.name) := by
  induction l with
  | nil => rfl
  | cons p t ih =>
    simp only [List.map_cons, List.flatten_cons, List.filter_cons, ih]
    by_cases hp : (!p.isWorkspaceProject && p.hasDependencies) = true <;>
      simp [installProject_eq, hp]

theorem installPhase_eq (batches : List (List Project)) :
    installPhase batches =
      (batches.flatten.filter (fun p => !p.isWorkspaceProject && p.hasDependencies)).map
        (fun p => Event.install p.name) := by
  induction batches with
  | nil => rfl
  | cons b rest ih =>
    simp only [installPhase, List.map_cons, List.flatten_cons, List.filter_append,
      List.map_append]
    rw [← ih]
    simp [installPhase, installBatch_eq]

theorem mem_installPhase (batches : List (List Project)) (e : Event)
    (he : e ∈ installPhase batches) : ∃ n, e = Event.install n := by
  rw [installPhase_eq] at he
  rcases List.mem_map.mp he with ⟨p, _, rfl⟩
  exact ⟨p.name, rfl⟩

theorem mem_decisionEvents (decs : List (String × Bool)) (e : Event)
    (he : e ∈ decisionEvents decs) : ∃ n v, e = Event.decision n v := by
  rcases List.mem_map.mp he with ⟨d, _, rfl⟩
  exact ⟨d.1, d.2, rfl⟩

theorem mem_buildUnit_events (dec : Option Bool) (p : Project) (f : Fingerprint)
    (ok : Bool) (st : CacheMap) (e : Event) (he : e ∈ (buildUnit dec p f ok st).1) :
    e = Event.cacheDelete p.name ∨ e = Event.buildTargets p.name ∨
      e = Event.runScript p.name ∨ e = Event.cacheWrite p.name := by
  match dec with
  | none => simp [buildUnit] at he
  | some true => simp [buildUnit] at he
  | some false =>
    cases hb : p.hasBuildTargets <;> cases ok <;> simp [buildUnit, hb] at he <;> tauto

theorem mem_buildBatch_events (decs : List (String × Bool))
    (fresh : String → Fingerprint) (ok : String → Bool) (l : List Project)
    (st : CacheMap) (e : Event) (he : e ∈ (buildBatch decs fresh ok l st).1) :
    ∃ p ∈ l, e = Event.cacheDelete p.name ∨ e = Event.buildTargets p.name ∨
      e = Event.runScript p.name ∨ e = Event.cacheWrite p.name := by
  induction l generalizing st with
  | nil => simp [buildBatch] at he
  | cons p t ih =>
    simp only [buildBatch, List.mem_append] at he
    rcases he with he | he
    · exact ⟨p, by simp, mem_buildUnit_events _ _ _ _ _ _ he⟩
    · rcases ih _ he with ⟨q, hq, hsh⟩
      exact ⟨q, by simp [hq], hsh⟩

theorem mem_buildPhase_events (decs : List (String × Bool))
    (fresh : String → Fingerprint) (ok : String → Bool)
    (batches : List (List Project)) (st : CacheMap) (e : Event)
    (he : e ∈ (buildPhase decs fresh ok batches st).1) :
    ∃ p ∈ batches.flatten, e = Event.cacheDelete p.name ∨ e = Event.buildTargets p.name ∨
      e = Event.runScript p.name ∨ e = Event.cacheWrite p.name := by
  induction batches generalizing st with
  | nil => simp [buildPhase] at he
  | cons b rest ih =>
    simp only [buildPhase] at he
    rcases hf : (buildBatch decs fresh ok b st).2.2 with _ | ⟨f, fs⟩ <;>
      rw [hf] at he
    · simp only [List.mem_append] at he
      rcases he with he | he
      · rcases mem_buildBatch_events _ _ _ _ _ _ he with ⟨p, hp, hsh⟩
        exact ⟨p, by simp [hp], hsh⟩
      · rcases ih _ he with ⟨p, hp, hsh⟩
        refine ⟨p, ?_, hsh⟩
        simp only [List.flatten_cons, List.mem_append]
        exact Or.inr hp
    · rcases mem_buildBatch_events _ _ _ _ _ _ he with ⟨p, hp, hsh⟩
      exact ⟨p, by simp [hp], hsh⟩

/-- Claim C8: the install phase invokes the install collaborator exactly
for the non-workspace projects that declare dependencies, one project at
a time in batch order, and workspace-aggregator projects are skipped
entirely even when they declare dependencies. -/
theorem install_phase_exact (batches : List (List Project)) :
    installPhase batches =
      (batches.flatten.filter (fun p => !p.isWorkspaceProject && p.hasDependencies)).map
        (fun p => Event.install p.name) ∧
    (∀ p : Project, p.isWorkspaceProject = true → installProject p = []) ∧
    (∀ p : Project, p.isWorkspaceProject = false → p.hasDependencies = true →
      installProject p = [Event.install p.name]) := by
  refine ⟨installPhase_eq batches, fun p hp => ?_, fun p hw hd => ?_⟩
  · simp [installProject, hp]
  · simp [installProject, hw, hd]

/-- Claim C4: the run's trace is exactly install events, then the lock
read and validation, then linking and checksums, then all cache
decisions, then the build-phase events; a failed validation ends the run
right after the lock read with a LockValidationError and no decision or
build event.  Decisions are computed from the cache store as it stood
before the build phase. -/
theorem run_phase_order (installBatches buildBatches : List (List Project))
    (projects : List Project) (opts : Options) (validateOk : Bool)
    (fresh : String → Fingerprint) (ok : String → Bool) (st : CacheMap) :
    (validateOk = true →
      (run installBatches buildBatches projects opts validateOk fresh ok st).trace =
        installPhase installBatches ++
          [Event.lockRead, Event.validate, Event.link, Event.checksums] ++
          decisionEvents (decisionList opts st fresh projects) ++
          (buildPhase (decisionList opts st fresh projects) fresh ok buildBatches st).1) ∧
    (∀ e ∈ installPhase installBatches, ∃ n, e = Event.install n) ∧
    (∀ e ∈ decisionEvents (decisionList opts st fresh projects),
      ∃ n v, e = Event.decision n v) ∧
    (∀ e ∈ (buildPhase (decisionList opts st fresh projects) fresh ok buildBatches st).1,
      ∃ n, e = Event.cacheDelete n ∨ e = Event.buildTargets n ∨
        e = Event.runScript n ∨ e = Event.cacheWrite n) ∧
    (validateOk = false →
      (run installBatches buildBatches projects opts validateOk fresh ok st).trace =
          installPhase installBatches ++ [Event.lockRead] ∧
        (run installBatches buildBatches projects opts validateOk fresh ok st).error =
          some RunError.lockValidation) := by
  refine ⟨fun hv => ?_, fun e he => mem_installPhase _ _ he,
    fun e he => mem_decisionEvents _ _ he, fun e he => ?_, fun hv => ?_⟩
  · subst hv
    simp [run]
  · rcases mem_buildPhase_events _ _ _ _ _ _ he with ⟨p, _, hsh⟩
    exact ⟨p.name, hsh⟩
  · subst hv
    exact ⟨by simp [run], by simp [run]⟩

theorem buildBatch_runs_stale (decs : List (String × Bool))
    (fresh : String → Fingerprint) (ok : String → Bool) (l : List Project)
    (st : CacheMap) (p : Project) (hp : p ∈ l)
    (hdec : lookupA decs p.name = some false) :
    Event.cacheDelete p.name ∈ (buildBatch decs fresh ok l st).1 := by
  induction l generalizing st with
  | nil => cases hp
  | cons q t ih =>
    simp only [buildBatch, List.mem_append]
    rcases List.mem_cons.mp hp with rfl | hpt
    · left
      rw [hdec]
      cases ok p.name <;> simp [buildUnit]
    · right
      exact ih _ hpt

/-- Claim C7: when a unit of a batch fails, every unit of that batch
still runs (every stale sibling's invalidation happens), no unit of any
later batch contributes an event, and once the batch settles the run
propagates the first failure of the batch. -/
theorem batch_failure_stops_scheduler (decs : List (String × Bool))
    (fresh : String → Fingerprint) (ok : String → Bool) (b : List Project)
    (rest : List (List Project)) (st : CacheMap)
    (hfail : (buildBatch decs fresh ok b st).2.2 ≠ []) :
    (buildPhase decs fresh ok (b :: rest) st).1 = (buildBatch decs fresh ok b st).1 ∧
    (buildPhase decs fresh ok (b :: rest) st).2.2 =
      (buildBatch decs fresh ok b st).2.2.head? ∧
    (∀ p ∈ b, lookupA decs p.name = some false →
      Event.cacheDelete p.name ∈ (buildPhase decs fresh ok (b :: rest) st).1) ∧
    (∀ q : Project, q ∈ rest.flatten → q.name ∉ b.map Project.name →
      ∀ e ∈ (buildPhase decs fresh ok (b :: rest) st).1,
        Event.projectName e ≠ some q.name) := by
  have hphase : buildPhase decs fresh ok (b :: rest) st =
      ⟨(buildBatch decs fresh ok b st).1, (buildBatch decs fresh ok b st).2.1,
        (buildBatch decs fresh ok b st).2.2.head?⟩ := by
    simp only [buildPhase]
    rcases hf : (buildBatch decs fresh ok b st).2.2 with _ | ⟨f, fs⟩
    · exact absurd hf hfail
    · simp [hf]
  refine ⟨by rw [hphase], by rw [hphase], fun p hp hdec => ?_, fun q hq hqb e he => ?_⟩
  · rw [hphase]
    exact buildBatch_runs_stale decs fresh ok b st p hp hdec
  · rw [hphase] at he
    rcases mem_buildBatch_events _ _ _ _ _ _ he with ⟨p, hpb, hsh⟩
    have hne : p.name ≠ q.name := by
      intro hco
      exact hqb (hco ▸ List.mem_map_of_mem Project.name hpb)
    rcases hsh with rfl | rfl | rfl | rfl <;> simpa [Event.projectName] using hne

theorem batch_failure_stops_scheduler_witness :
    (buildPhase [("a", false), ("b", false)] (fun _ => 0) (fun _ => false)
        ([⟨"a", false, true, false, true⟩] :: [[⟨"b", false, true, true, false⟩]]) []).1 =
      (buildBatch [("a", false), ("b", false)] (fun _ => 0) (fun _ => false)
        [⟨"a", false, true, false, true⟩] []).1 :=
  (batch_failure_stops_scheduler [("a", false), ("b", false)] (fun _ => 0)
    (fun _ => false) [⟨"a", false, true, false, true⟩]
    [[⟨"b", false, true, true, false⟩]] [] (by decide)).1

theorem buildUnit_success (dec : Option Bool) (p : Project) (f : Fingerprint)
    (st : CacheMap) : (buildUnit dec p f true st).2.2 = true := by
  match dec with
  | none => rfl
  | some true => rfl
  | some false => simp [buildUnit]

theorem buildBatch_ok_no_failures (decs : List (String × Bool))
    (fresh : String → Fingerprint) (ok : String → Bool) (l : List Project)
    (st : CacheMap) (hok : ∀ n, ok n = true) :
    (buildBatch decs fresh ok l st).2.2 = [] := by
  induction l generalizing st with
  | nil => rfl
  | cons p t ih =>
    simp only [buildBatch, hok p.name, buildUnit_success]
    simpa using ih _

theorem lookupA_decisionList_not_mem (opts : Options) (st : CacheMap)
    (fresh : String → Fingerprint) (projects : List Project) (x : String)
    (h : ∀ q ∈ projects, q.name ≠ x) :
    lookupA (decisionList opts st fresh projects) x = none := by
  induction projects with
  | nil => rfl
  | cons p t ih =>
    simp only [decisionList, List.filterMap_cons]
    rcases hd : cacheDecision opts st fresh p with _ | v
    · simpa [hd, decisionList] using ih (fun q hq => h q (by simp [hq]))
    · simp only [hd, Option.map_some, lookupA]
      rw [if_neg (h p (by simp))]
      simpa [decisionList] using ih (fun q hq => h q (by simp [hq]))

theorem lookupA_decisionList (opts : Options) (st : CacheMap)
    (fresh : String → Fingerprint) (projects : List Project) (p : Project)
    (hp : p ∈ projects) (hnd : (projects.map Project.name).Nodup) :
    lookupA (decisionList opts st fresh projects) p.name =
      cacheDecision opts st fresh p := by
  induction projects with
  | nil => cases hp
  | cons q t ih =>
    simp only [List.map_cons, List.nodup_cons] at hnd
    rcases List.mem_cons.mp hp with rfl | hpt
    · rcases hd : cacheDecision opts st fresh p with _ | v
      · simp only [decisionList, List.filterMap_cons, hd, Option.map_none]
        have hother : ∀ r ∈ t, r.name ≠ p.name := by
          intro r hr hco
          exact hnd.1 (hco ▸ List.mem_map_of_mem Project.name hr)
        simpa [decisionList] using
          lookupA_decisionList_not_mem opts st fresh t p.name hother
      · simp [decisionList, List.filterMap_cons, hd, lookupA]
    · have hq : q.name ≠ p.name := by
        intro hco
        exact hnd.1 (hco ▸ List.mem_map_of_mem Project.name hpt)
      rcases hd : cacheDecision opts st fresh q with _ | v
      · simpa [decisionList, List.filterMap_cons, hd] using ih hpt hnd.2
      · simp only [decisionList, List.filterMap_cons, hd, Option.map_some, lookupA]
        rw [if_neg hq]
        simpa [decisionList] using ih hpt hnd.2

theorem buildBatch_ok_lookup (decs : List (String × Bool))
    (fresh : String → Fingerprint) (ok : String → Bool) (l : List Project)
    (st : CacheMap) (p : Project) (hok : ∀ n, ok n = true) (hp : p ∈ l)
    (hnd : (l.map Project.name).Nodup) :
    lookupRecord (buildBatch decs fresh ok l st).2.1 p.name =
      if lookupA decs p.name = some false then some (fresh p.name)
      else lookupRecord st p.name := by
  induction l generalizing st with
  | nil => cases hp
  | cons q t ih =>
    simp only [List.map_cons, List.nodup_cons] at hnd
    rcases List.mem_cons.mp hp with rfl | hpt
    · have hother : ∀ r ∈ t, r.name = p.name → lookupA decs r.name ≠ some false := by
        intro r hr hco
        exact absurd (hco ▸ List.mem_map_of_mem Project.name hr) hnd.1
      simp only [buildBatch]
      rw [buildBatch_lookup_preserved decs fresh ok t _ p.name hother, hok p.name]
      rcases hd : lookupA decs p.name with _ | b
      · rw [buildUnit_skip _ _ _ _ _ (by simp [hd])]
        simp
      · cases b
        · simp [buildUnit, lookupRecord_writeRecord]
        · rw [buildUnit_skip _ _ _ _ _ (by simp)]
          simp
    · have hq : q.name ≠ p.name := by
        intro hco
        exact hnd.1 (hco ▸ List.mem_map_of_mem Project.name hpt)
      simp only [buildBatch]
      rw [ih _ hpt hnd.2, buildUnit_lookup_other _ _ _ _ _ _ hq]

theorem buildPhase_ok_lookup (decs : List (String × Bool))
    (fresh : String → Fingerprint) (ok : String → Bool)
    (batches : List (List Project)) (st : CacheMap) (p : Project)
    (hok : ∀ n, ok n = true) (hp : p ∈ batches.flatten)
    (hnd : (batches.flatten.map Project.name).Nodup) :
    lookupRecord (buildPhase decs fresh ok batches st).2.1 p.name =
      if lookupA decs p.name = some false then some (fresh p.name)
      else lookupRecord st p.name := by
  induction batches generalizing st with
  | nil => simp at hp
  | cons b rest ih =>
    simp only [List.flatten_cons] at hp hnd
    rw [List.map_append, List.nodup_append] at hnd
    obtain ⟨hnb, hnr, hdisj⟩ := hnd
    simp only [buildPhase, buildBatch_ok_no_failures decs fresh ok b st hok]
    rcases List.mem_append.mp hp with hpb | hpr
    · have hother : ∀ q ∈ rest.flatten, q.name = p.name →
          lookupA decs q.name ≠ some false := by
        intro q hq hco
        exact (hdisj (List.mem_map_of_mem Project.name hpb)
          (hco ▸ List.mem_map_of_mem Project.name hq)).elim
      rw [buildPhase_lookup_preserved decs fresh ok rest _ p.name hother]
      exact buildBatch_ok_lookup decs fresh ok b st p hok hpb hnb
    · have hother : ∀ q ∈ b, q.name = p.name → lookupA decs q.name ≠ some false := by
        intro q hq hco
        exact (hdisj (List.mem_map_of_mem Project.name hq)
          (hco ▸ List.mem_map_of_mem Project.name hpr)).elim
      rw [ih _ hpr hnr, buildBatch_lookup_preserved decs fresh ok b st p.name hother]

theorem buildBatch_no_stale (decs : List (String × Bool))
    (fresh : String → Fingerprint) (ok : String → Bool) (l : List Project)
    (st : CacheMap) (h : ∀ q ∈ l, lookupA decs q.name ≠ some false) :
    buildBatch decs fresh ok l st = ⟨[], st, []⟩ := by
  induction l generalizing st with
  | nil => rfl
  | cons p t ih =>
    simp only [buildBatch]
    rw [buildUnit_skip _ _ _ _ _ (h p (by simp))]
    rw [ih _ (fun q hq => h q (by simp [hq]))]
    simp

theorem buildPhase_no_stale (decs : List (String × Bool))
    (fresh : String → Fingerprint) (ok : String → Bool)
    (batches : List (List Project)) (st : CacheMap)
    (h : ∀ q ∈ batches.flatten, lookupA decs q.name ≠ some false) :
    buildPhase decs fresh ok batches st = ⟨[], st, none⟩ := by
  induction batches generalizing st with
  | nil => rfl
  | cons b rest ih =>
    simp only [buildPhase]
    rw [buildBatch_no_stale decs fresh ok b st (fun q hq => h q (by simp [hq]))]
    simpa using ih _ (fun q hq => h q (by simp [List.mem_flatten] at hq ⊢; right; exact hq))

/-- Claim C6: with caching enabled and the fingerprints unchanged, a
second run after a fully successful first run gives every cached project
a valid decision and its trace contains no build-target or script
invocation at all. -/
theorem second_run_all_valid (installBatches buildBatches : List (List Project))
    (projects : List Project) (opts : Options) (fresh : String → Fingerprint)
    (ok : String → Bool) (st st1 : CacheMap)
    (hc : opts.cache = true) (hok : ∀ n, ok n = true)
    (hperm : List.Perm buildBatches.flatten projects)
    (hnd : (projects.map Project.name).Nodup)
    (hst1 : st1 = (run installBatches buildBatches projects opts true fresh ok st).cache) :
    (∀ p ∈ projects, needsCache p = true → cacheDecision opts st1 fresh p = some true) ∧
    (∀ n : String,
      Event.buildTargets n ∉
          (run installBatches buildBatches projects opts true fresh ok st1).trace ∧
        Event.runScript n ∉
          (run installBatches buildBatches projects opts true fresh ok st1).trace) := by
  have hndf : (buildBatches.flatten.map Project.name).Nodup :=
    ((hperm.map Project.name).nodup_iff).mpr hnd
  have hcache : (run installBatches buildBatches projects opts true fresh ok st).cache =
      (buildPhase (decisionList opts st fresh projects) fresh ok buildBatches st).2.1 := by
    simp [run]
  have key : ∀ p ∈ projects, needsCache p = true →
      lookupRecord st1 p.name = some (fresh p.name) := by
    intro p hp hneed
    have hpf : p ∈ buildBatches.flatten := hperm.mem_iff.mpr hp
    have hdec : lookupA (decisionList opts st fresh projects) p.name =
        cacheDecision opts st fresh p :=
      lookupA_decisionList opts st fresh projects p hp hnd
    have hlook := buildPhase_ok_lookup (decisionList opts st fresh projects) fresh ok
      buildBatches st p hok hpf hndf
    rw [hst1, hcache, hlook, hdec]
    cases hv : isValid st p.name (fresh p.name)
    · simp [cacheDecision, hneed, hc, hv]
    · have hval : lookupRecord st p.name = some (fresh p.name) := by
        simpa [isValid] using hv
      simp [cacheDecision, hneed, hc, hv, hval]
  have keyDec : ∀ p ∈ projects, needsCache p = true →
      cacheDecision opts st1 fresh p = some true := by
    intro p hp hneed
    simp [cacheDecision, hneed, hc, isValid, key p hp hneed]
  refine ⟨keyDec, ?_⟩
  have hnostale : ∀ q ∈ buildBatches.flatten,
      lookupA (decisionList opts st1 fresh projects) q.name ≠ some false := by
    intro q hq
    have hqp : q ∈ projects := hperm.mem_iff.mp hq
    rw [lookupA_decisionList opts st1 fresh projects q hqp hnd]
    cases hneed : needsCache q
    · simp [cacheDecision, hneed]
    · rw [keyDec q hqp hneed]
      simp
  have hbp := buildPhase_no_stale (decisionList opts st1 fresh projects) fresh ok
    buildBatches st1 hnostale
  have htr : (run installBatches buildBatches projects opts true fresh ok st1).trace =
      installPhase installBatches ++
        [Event.lockRead, Event.validate, Event.link, Event.checksums] ++
        decisionEvents (decisionList opts st1 fresh projects) := by
    simp [run, hbp]
  intro n
  constructor <;> intro hmem <;> rw [htr] at hmem <;>
    rcases List.mem_append.mp hmem with hmem2 | hmem2
  · rcases List.mem_append.mp hmem2 with hmem3 | hmem3
    · rcases mem_installPhase _ _ hmem3 with ⟨m, hco⟩
      cases hco
    · simp at hmem3
  · rcases mem_decisionEvents _ _ hmem2 with ⟨m, v, hco⟩
    cases hco
  · rcases List.mem_append.mp hmem2 with hmem3 | hmem3
    · rcases mem_installPhase _ _ hmem3 with ⟨m, hco⟩
      cases hco
    · simp at hmem3
  · rcases mem_decisionEvents _ _ hmem2 with ⟨m, v, hco⟩
    cases hco

theorem second_run_all_valid_witness :
    cacheDecision ⟨true, false, false⟩
        ((run [] [[⟨"a", false, true, true, false⟩]] [⟨"a", false, true, true, false⟩]
            ⟨true, false, false⟩ true (fun _ => 0) (fun _ => true) []).cache)
        (fun _ => 0) ⟨"a", false, true, true, false⟩ = some true :=
  (second_run_all_valid [] [[⟨"a", false, true, true, false⟩]]
      [⟨"a", false, true, true, false⟩] ⟨true, false, false⟩ (fun _ => 0)
      (fun _ => true) [] _ rfl (fun _ => rfl) (List.Perm.refl _) (by simp) rfl).1
    ⟨"a", false, true, true, false⟩ (by simp) rfl

theorem exists_min_by {α : Type} (f : α → Nat) (l : List α) (h : l ≠ []) :
    ∃ m ∈ l, ∀ x ∈ l, f m ≤ f x := by
  induction l with
  | nil => cases h rfl
  | cons a t ih =>
    cases t with
    | nil => exact ⟨a, by simp, by simp⟩
    | cons b u =>
      rcases ih (by simp) with ⟨m, hm, hmin⟩
      by_cases hle : f a ≤ f m
      · refine ⟨a, by simp, fun x hx => ?_⟩
        rcases List.mem_cons.mp hx with rfl | hx2
        · exact le_refl _
        · exact le_trans hle (hmin x hx2)
      · refine ⟨m, by simp [hm], fun x hx => ?_⟩
        rcases List.mem_cons.mp hx with rfl | hx2
        · exact le_of_not_le hle
        · exact hmin x hx2

theorem ready_iff (deps : String → List String) (rem : List String) (n : String) :
    ready deps rem n = true ↔ ∀ d ∈ deps n, d ∉ rem := by
  simp [ready, List.all_eq_true, List.elem_iff]

theorem ready_exists (deps : String → List String) (rank : String → Nat)
    (rem : List String) (hne : rem ≠ [])
    (hac : ∀ n ∈ rem, ∀ d ∈ deps n, d ∈ rem → rank d < rank n) :
    rem.filter (ready deps rem) ≠ [] := by
  rcases exists_min_by rank rem hne with ⟨m, hm, hmin⟩
  have hr : ready deps rem m = true := by
    rw [ready_iff]
    intro d hd hdm
    exact absurd (lt_of_lt_of_le (hac m hm d hd hdm) (hmin d hdm)) (lt_irrefl _)
  exact List.ne_nil_of_mem (List.mem_filter.mpr ⟨hm, hr⟩)

theorem length_filter_not_lt {α : Type} (p : α → Bool) (l : List α)
    (h : l.filter p ≠ []) :
    (l.filter (fun a => !(p a))).length < l.length := by
  have hlen := (List.filter_append_perm p l).length_eq
  have hpos : 0 < (l.filter p).length := List.length_pos.mpr h
  simp only [List.length_append] at hlen
  omega

theorem batchAux_cons (deps : String → List String) (fuel : Nat) (n : String)
    (rest : List String) :
    batchAux deps (fuel + 1) (n :: rest) =
      if ((n :: rest).filter (ready deps (n :: rest))).isEmpty then none
      else
        (batchAux deps fuel
            ((n :: rest).filter (fun m => !(ready deps (n :: rest) m)))).map
          (fun bs => ((n :: rest).filter (ready deps (n :: rest))) :: bs) := rfl

theorem batchAux_flatten_perm (deps : String → List String) :
    ∀ (fuel : Nat) (rem : List String) (bs : List (List String)),
      batchAux deps fuel rem = some bs → List.Perm bs.flatten rem := by
  intro fuel
  induction fuel with
  | zero =>
    intro rem bs h
    cases rem with
    | nil =>
      have hb : bs = [] := by simpa [batchAux] using h.symm
      simp [hb]
    | cons n t => simp [batchAux] at h
  | succ fuel ih =>
    intro rem bs h
    cases rem with
    | nil =>
      have hb : bs = [] := by simpa [batchAux] using h.symm
      simp [hb]
    | cons n t =>
      rw [batchAux_cons] at h
      by_cases hemp : ((n :: t).filter (ready deps (n :: t))).isEmpty = true
      · rw [if_pos hemp] at h
        cases h
      · rw [if_neg hemp] at h
        rcases Option.map_eq_some'.mp h with ⟨bs', hbs', rfl⟩
        simpa using ((ih _ _ hbs').append_left _).trans (List.filter_append_perm _ _)

theorem batchAux_isSome (deps : String → List String) (rank : String → Nat) :
    ∀ (fuel : Nat) (rem : List String), rem.length ≤ fuel →
      (∀ n ∈ rem, ∀ d ∈ deps n, d ∈ rem → rank d < rank n) →
      ∃ bs, batchAux deps fuel rem = some bs := by
  intro fuel
  induction fuel with
  | zero =>
    intro rem hlen hac
    have hb : rem = [] := List.eq_nil_of_length_eq_zero (Nat.le_zero.mp hlen)
    exact ⟨[], by simp [hb, batchAux]⟩
  | succ fuel ih =>
    intro rem hlen hac
    cases rem with
    | nil => exact ⟨[], rfl⟩
    | cons n t =>
      have hb := ready_exists deps rank (n :: t) (by simp) hac
      have hlt := length_filter_not_lt (ready deps (n :: t)) (n :: t) hb
      have hsub : ∀ m ∈ (n :: t).filter (fun m => !(ready deps (n :: t) m)),
          m ∈ n :: t := fun m hm => (List.mem_filter.mp hm).1
      have hlen2 :
          ((n :: t).filter (fun m => !(ready deps (n :: t) m))).length ≤ fuel := by
        have := hlen
        simp only [List.length_cons] at this hlt ⊢
        omega
      rcases ih _ hlen2
          (fun m hm d hd hdm => hac m (hsub m hm) d hd (hsub d hdm)) with ⟨bs', hbs'⟩
      refine ⟨((n :: t).filter (ready deps (n :: t))) :: bs', ?_⟩
      rw [batchAux_cons, if_neg (fun hco => hb (List.isEmpty_iff.mp hco)), hbs']
      rfl

theorem batchAux_edge_lt (deps : String → List String) :
    ∀ (fuel : Nat) (rem : List String) (bs : List (List String)),
      batchAux deps fuel rem = some bs →
      ∀ (i j : Nat) (hi : i < bs.length) (hj : j < bs.length) (n d : String),
        n ∈ bs[i] → d ∈ deps n → d ∈ bs[j] → j < i := by
  intro fuel
  induction fuel with
  | zero =>
    intro rem bs h i j hi hj n d hn hd hdj
    cases rem with
    | nil =>
      have hb : bs = [] := by simpa [batchAux] using h.symm
      subst hb
      simp at hi
    | cons m t => simp [batchAux] at h
  | succ fuel ih =>
    intro rem bs h i j hi hj n d hn hd hdj
    cases rem with
    | nil =>
      have hb : bs = [] := by simpa [batchAux] using h.symm
      subst hb
      simp at hi
    | cons m t =>
      rw [batchAux_cons] at h
      by_cases hemp : ((m :: t).filter (ready deps (m :: t))).isEmpty = true
      · rw [if_pos hemp] at h
        cases h
      · rw [if_neg hemp] at h
        rcases Option.map_eq_some'.mp h with ⟨bs', hbs', rfl⟩
        match i, hi with
        | 0, _ =>
          have hnb : n ∈ (m :: t).filter (ready deps (m :: t)) := by
            simpa using hn
          have hready := (List.mem_filter.mp hnb).2
          have hnotin : d ∉ (m :: t) := (ready_iff deps (m :: t) n).mp hready d hd
          exfalso
          apply hnotin
          match j, hj with
          | 0, _ => exact (List.mem_filter.mp (by simpa using hdj)).1
          | j2 + 1, hj =>
            have hj2 : j2 < bs'.length := by
              simp only [List.length_cons] at hj
              omega
            have hdf : d ∈ bs'.flatten :=
              List.mem_flatten.mpr ⟨bs'[j2], List.getElem_mem hj2, by simpa using hdj⟩
            have hmem := (batchAux_flatten_perm deps fuel _ bs' hbs').mem_iff.mp hdf
            exact (List.mem_filter.mp hmem).1
        | i2 + 1, hi =>
          match j, hj with
          | 0, _ => exact Nat.succ_pos i2
          | j2 + 1, hj =>
            have hi2 : i2 < bs'.length := by
              simp only [List.length_cons] at hi
              omega
            have hj2 : j2 < bs'.length := by
              simp only [List.length_cons] at hj
              omega
            have := ih _ _ hbs' i2 j2 hi2 hj2 n d (by simpa using hn) hd
              (by simpa using hdj)
            omega

theorem flatten_nodup_unique (bs : List (List String)) (hnd : bs.flatten.Nodup)
    (i j : Nat) (hi : i < bs.length) (hj : j < bs.length) (x : String)
    (hxi : x ∈ bs[i]) (hxj : x ∈ bs[j]) : i = j := by
  have hpair := (List.nodup_flatten.mp hnd).2
  have hget := List.pairwise_iff_getElem.mp hpair
  rcases Nat.lt_trichotomy i j with hlt | heq | hgt
  · exact ((hget i j hi hj hlt) hxi hxj).elim
  · exact heq
  · exact ((hget j i hj hi hgt) hxj hxi).elim

/-- Claim C5: for every acyclic graph (witnessed by a rank function) the
topological batching succeeds, its batches partition the input node set
(the flattened batches are a permutation of the input, and a node sits
in exactly one batch), and every dependency sits in a strictly earlier
batch than its dependent. -/
theorem batch_topologically_correct (deps : String → List String)
    (nodes : List String) (rank : String → Nat)
    (hac : ∀ n ∈ nodes, ∀ d ∈ deps n, d ∈ nodes → rank d < rank n)
    (hnd : nodes.Nodup) :
    ∃ bs, batch deps nodes = some bs ∧
      List.Perm bs.flatten nodes ∧
      (∀ (i j : Nat) (hi : i < bs.length) (hj : j < bs.length) (x : String),
        x ∈ bs[i] → x ∈ bs[j] → i = j) ∧
      (∀ (i j : Nat) (hi : i < bs.length) (hj : j < bs.length) (n d : String),
        n ∈ bs[i] → d ∈ deps n → d ∈ bs[j] → j < i) := by
  rcases batchAux_isSome deps rank nodes.length nodes (le_refl _) hac with ⟨bs, hbs⟩
  have hperm := batchAux_flatten_perm deps nodes.length nodes bs hbs
  refine ⟨bs, hbs, hperm, ?_, ?_⟩
  · intro i j hi hj x hxi hxj
    exact flatten_nodup_unique bs (hperm.nodup_iff.mpr hnd) i j hi hj x hxi hxj
  · exact fun i j hi hj n d hn hd hdj =>
      batchAux_edge_lt deps nodes.length nodes bs hbs i j hi hj n d hn hd hdj

/-- Example dependency function: `b` depends on `a`, `c` on `a` and `b`. -/
def depsExample : String → List String :=
  fun n => if n = "b" then ["a"] else if n = "c" then ["a", "b"] else []

/-- A rank function witnessing that `depsExample` is acyclic. -/
def rankExample : String → Nat :=
  fun n => if n = "a" then 0 else if n = "b" then 1 else 2

theorem batch_topologically_correct_witness :
    ∃ bs, batch depsExample ["a", "b", "c"] = some bs ∧
      List.Perm bs.flatten ["a", "b", "c"] ∧
      (∀ (i j : Nat) (hi : i < bs.length) (hj : j < bs.length) (x : String),
        x ∈ bs[i] → x ∈ bs[j] → i = j) ∧
      (∀ (i j : Nat) (hi : i < bs.length) (hj : j < bs.length) (n d : String),
        n ∈ bs[i] → d ∈ depsExample n → d ∈ bs[j] → j < i) :=
  batch_topologically_correct depsExample ["a", "b", "c"] rankExample
    (by decide) (by decide)

end OsdBootstrap
